import Mathlib

/-!
Verification of the geo-distributed LRU cache library (`src/q3.js`) and of the
interval-overlap utility (`src/q1.js`).

The JavaScript classes are shallowly embedded as Lean structures with explicit
state passing.  The doubly linked recency list (`head`/`tail`/`prev`/`next`
pointers) is represented by the sequence of nodes it holds, head (most recently
used) first; the standard pointer surgery of `LRU.remove`/`LRU.write`
corresponds to erasing / consing on that sequence.  JavaScript timers
(`setTimeout`/`clearTimeout`) are modelled by a set of armed timers carried in
the state, written `pending : List (Nat × String × Int)` (timer id, key to
remove when the timer fires, delay in milliseconds), together with a counter
`nextTimer` supplying fresh timer ids; the event loop firing a due timer is the
explicit `LRU.fire` operation.  JavaScript numbers appearing as lengths,
capacities and millisecond durations are modelled as `Int`; the values stored
in the cache are modelled as `Int` (the cache never inspects them).
A JavaScript expression that throws (`this.tail.key` when `tail` is `null`,
the undefined identifiers in `Node.clone`) makes the modelled operation return
`none` / `Except.error`.
-/

deriving instance DecidableEq for Except

/-- JavaScript object used as a hash map: lookup of the binding of `k`
(`obj[k]`, `undefined` when absent is `none`). -/
def mapGet (m : List (String × α)) (k : String) : Option α :=
  (m.find? (fun p => p.1 == k)).map Prod.snd

/-- JavaScript property assignment `obj[k] = v`: an existing binding is
replaced in place (JS objects keep the original insertion position of a key);
a new key is appended at the end of the insertion order. -/
def mapSet (m : List (String × α)) (k : String) (v : α) : List (String × α) :=
  match m with
  | [] => [(k, v)]
  | (k', v') :: rest =>
      if k' == k then (k, v) :: rest else (k', v') :: mapSet rest k v

/-- JavaScript `delete obj[k]`: drop the binding of `k`, keep all others. -/
def mapDelete (m : List (String × α)) (k : String) : List (String × α) :=
  m.filter (fun p => p.1 != k)

/-- `class Node` (src/q3.js lines 27-40): one cache record.  `key`, `val` as in
the source; `timeout` is the handle of the `setTimeout` task armed for this
node.  The `prev`/`next` links are not stored here: the node's position in the
recency list is represented by its position in `LRU.entries`. -/
structure Node where
  key : String
  val : Int
  timeout : Nat
deriving DecidableEq, Repr

/-- `Node.clone` (src/q3.js lines 36-39).  The source reads
`this.prev ? prev.clone() : null` and `this.next ? next.clone() : null`:
the identifiers `prev` and `next` (without `this.`) are undeclared, so the
method throws a `ReferenceError` as soon as the node has a non-null `prev`
(respectively a non-null `next`); it only ever succeeds on a node with both
links null, where it returns a fresh node with the same fields.
`hasPrev`/`hasNext` say whether the cloned node's links are non-null. -/
def Node.clone (hasPrev hasNext : Bool) (n : Node) : Except String Node :=
  if hasPrev then Except.error "ReferenceError: prev is not defined"
  else if hasNext then Except.error "ReferenceError: next is not defined"
  else Except.ok n

/-- `class LRU` (src/q3.js lines 49-162): the state of one cache.
`length`, `limit`, `timeLimit`, `cache` as in the source; `entries` is the
sequence held by the doubly linked list, head first (so `this.head` is
`entries.head?` and `this.tail` is `entries.getLast?`); `pending`/`nextTimer`
model the armed JavaScript timers as described in the file docstring. -/
structure LRU where
  length : Int
  limit : Int
  timeLimit : Int
  entries : List Node
  cache : List (String × Node)
  pending : List (Nat × String × Int)
  nextTimer : Nat
deriving DecidableEq, Repr

/-- `LRU.constructor` (src/q3.js lines 55-62): stores `limit` and `timeLimit`
as given (there is no validation in the source) and starts empty.  Default
arguments as in the source. -/
def LRU.init (limit : Int := 10) (timeLimit : Int := 60000) : LRU :=
  { length := 0
    limit := limit
    timeLimit := timeLimit
    entries := []
    cache := []
    pending := []
    nextTimer := 0 }

/-- `LRU.remove` (src/q3.js lines 64-92): no-op when the key is absent;
otherwise clear the node's timeout, unlink the node from the doubly linked
list (erase it from the represented sequence), delete the key from the hash
map and decrement `length`. -/
def LRU.remove (st : LRU) (key : String) : LRU :=
  match mapGet st.cache key with
  | none => st
  | some node =>
      { st with
        pending := st.pending.filter (fun u => u.1 != node.timeout)
        entries := st.entries.eraseP (fun e => e.key == key)
        cache := mapDelete st.cache key
        length := st.length - 1 }

/-- `LRU.isAtLimit` (src/q3.js lines 94-96). -/
def LRU.isAtLimit (st : LRU) : Bool :=
  st.length == st.limit

/-- The `timeoutTime` computation of `LRU.write` (src/q3.js line 125):
`timeLimit || this.timeLimit`.  A missing argument (`null`) falls back to the
cache-level `timeLimit`, and so does `0`, which is falsy in JavaScript. -/
def LRU.resolveTTL (st : LRU) (timeLimit : Option Int) : Int :=
  match timeLimit with
  | none => st.timeLimit
  | some t => if t = 0 then st.timeLimit else t

/-- The insertion stage of `LRU.write` (src/q3.js lines 124-145), reached
after the duplicate-key removal and capacity eviction: arm a timeout for the
key (`setTimeout`, a fresh handle), create the node and link it at the head
of the list (the source's `length === 0` and `length > 0` branches both
amount to consing the node onto the represented sequence), store it in the
hash map, increment `length`. -/
def LRU.insertNew (st : LRU) (key : String) (val : Int)
    (timeLimit : Option Int) : LRU :=
  let timeoutTime := st.resolveTTL timeLimit
  let tid := st.nextTimer
  let node : Node := { key := key, val := val, timeout := tid }
  { st with
    pending := (tid, key, timeoutTime) :: st.pending
    nextTimer := st.nextTimer + 1
    entries := node :: st.entries
    cache := mapSet st.cache key node
    length := st.length + 1 }

/-- `LRU.write` (src/q3.js lines 112-145): if the key already exists, remove
it first; if the cache is then at its limit, remove the tail — when the list
is empty this reads `this.tail.key` with `tail = null` and throws (`none`);
then run the insertion stage `LRU.insertNew`. -/
def LRU.write (st : LRU) (key : String) (val : Int)
    (timeLimit : Option Int := none) : Option LRU :=
  let st1 := if (mapGet st.cache key).isSome then st.remove key else st
  if st1.isAtLimit then
    match st1.entries.getLast? with
    | none => none
    | some tailNode => some ((st1.remove tailNode.key).insertNew key val timeLimit)
  else some (st1.insertNew key val timeLimit)

/-- `LRU.read` (src/q3.js lines 98-109): when the key is present, remove the
node and re-write the stored value (which places it at the head with a fresh
timeout at the default `timeLimit`); when absent, do nothing.  The source
function body contains no `return` statement, so the call expression evaluates
to `undefined` in every case: the second component of the result is that
returned value, always `none`. -/
def LRU.read (st : LRU) (key : String) : Option (LRU × Option Int) :=
  match mapGet st.cache key with
  | none => some (st, none)
  | some node =>
      match (st.remove key).write key node.val none with
      | none => none
      | some st' => some (st', none)

/-- The event loop firing the timer with handle `tid` (the callback armed at
src/q3.js lines 126-128): a timer only fires while it is still armed, it is
consumed by firing, and its callback is `this.remove(key)` for the key it was
armed for.  Firing a handle that is not armed (already cleared or already
fired) does nothing. -/
def LRU.fire (st : LRU) (tid : Nat) : LRU :=
  match st.pending.find? (fun t => t.1 == tid) with
  | none => st
  | some t =>
      let st' := { st with pending := st.pending.filter (fun u => u.1 != tid) }
      st'.remove t.2.1

/-- One client-visible event on a single cache: `put` (`write`), `get`
(`read`), `del` (`remove`), or the expiry of an armed timer. -/
inductive Op where
  | put (key : String) (val : Int) (timeLimit : Option Int)
  | get (key : String)
  | del (key : String)
  | expire (tid : Nat)
deriving DecidableEq, Repr

/-- Apply one operation to a cache state (`none` when the underlying
JavaScript call would throw). -/
def LRU.step (st : LRU) : Op → Option LRU
  | Op.put k v tl => st.write k v tl
  | Op.get k => (st.read k).map Prod.fst
  | Op.del k => some (st.remove k)
  | Op.expire tid => some (st.fire tid)

/-- Apply a finite sequence of operations, left to right. -/
def LRU.run (st : LRU) : List Op → Option LRU
  | [] => some st
  | op :: ops =>
      match st.step op with
      | none => none
      | some st' => st'.run ops

/-- `class GlobalLRU` (src/q3.js lines 168-208): the replication hub.  It
`extends LRU`, so it carries its own cache state (`self`), plus the registry
`lrus` of regional caches keyed by region id. -/
structure GlobalLRU where
  self : LRU
  lrus : List (String × LRU)
deriving DecidableEq, Repr

/-- `GlobalLRU.addLRU` (src/q3.js lines 174-176): plain property assignment —
a duplicate region id silently overwrites the previous registration. -/
def GlobalLRU.addLRU (g : GlobalLRU) (lruKey : String) (lru : LRU) : GlobalLRU :=
  { g with lrus := mapSet g.lrus lruKey lru }

/-- `GlobalLRU.removeLRU` (src/q3.js lines 178-180): plain `delete` — an
unknown id is a no-op. -/
def GlobalLRU.removeLRU (g : GlobalLRU) (lruKey : String) : GlobalLRU :=
  { g with lrus := g.lrus.filter (fun p => p.1 != lruKey) }

/-- The fan-out loop of `GlobalLRU.write` (src/q3.js lines 197-206): for every
registered region id other than the originating `lruKey`, apply
`updateWrite(key, val, timeLimit)` to that region.  `updateWrite`
(src/q3.js lines 241-243 and 268-270) is exactly the base-class `LRU.write` on
that region's own state: it notifies nobody, so no further fan-out round
happens.  A region whose `write` throws propagates the exception (`none`). -/
def fanOutWrite (regions : List (String × LRU)) (key : String) (val : Int)
    (timeLimit : Option Int) (lruKey : String) : Option (List (String × LRU)) :=
  match regions with
  | [] => some []
  | (id, st) :: rest =>
      if id == lruKey then
        (fanOutWrite rest key val timeLimit lruKey).map (fun l => (id, st) :: l)
      else
        match st.write key val timeLimit with
        | none => none
        | some st' =>
            (fanOutWrite rest key val timeLimit lruKey).map (fun l => (id, st') :: l)

/-- `GlobalLRU.write` (src/q3.js lines 194-207): apply `super.write` to the
hub's own store, then fan the write out to every registered region except the
originator. -/
def GlobalLRU.write (g : GlobalLRU) (key : String) (val : Int)
    (timeLimit : Option Int) (lruKey : String) : Option GlobalLRU :=
  match g.self.write key val timeLimit with
  | none => none
  | some self' =>
      match fanOutWrite g.lrus key val timeLimit lruKey with
      | none => none
      | some lrus' => some { self := self', lrus := lrus' }

/-- `CanadaLRU.constructor` (src/q3.js lines 211-223): start from
`super(limit, timeLimit)`; when the hub's store is non-empty, set
`this.head = globalLRU.head.clone()` and `this.tail = globalLRU.tail.clone()`,
copy `length`, and shallow-copy the hash map (`{...globalLRU.cache}` — the
bindings still reference the hub's own node objects).  The head node's `next`
link (and the tail node's `prev` link) is non-null exactly when the hub holds
at least two nodes, in which case `Node.clone` throws its `ReferenceError`
and construction fails. -/
def CanadaLRU.bootstrap (g : LRU) (limit : Int := 10)
    (timeLimit : Int := 60000) : Except String LRU :=
  let st := LRU.init limit timeLimit
  if 0 < g.length then
    match g.entries with
    | [] => Except.error "TypeError: Cannot read properties of null"
    | headNode :: rest =>
        match Node.clone false (!rest.isEmpty) headNode with
        | Except.error e => Except.error e
        | Except.ok _ =>
            match g.entries.getLast? with
            | none => Except.error "TypeError: Cannot read properties of null"
            | some tailNode =>
                match Node.clone (!rest.isEmpty) false tailNode with
                | Except.error e => Except.error e
                | Except.ok _ =>
                    Except.ok { st with
                      entries := g.entries
                      cache := g.cache
                      length := g.length }
  else Except.ok st

/-- The body of `q1` after the two swaps (src/q1.js lines 33-49), on pairs
already in ascending order: `(a1, b1)` is the first line, `(a2, b2)` the
second. -/
def q1core (a1 b1 a2 b2 : ℚ) : Bool :=
  if a1 = a2 ∨ a1 = b2 ∨ b1 = a2 ∨ b1 = b2 then true
  else if a2 > a1 ∧ b1 > a2 then true
  else if a1 > a2 ∧ b2 > a1 then true
  else false

/-- `q1` (src/q1.js lines 16-50): sort each endpoint pair (lines 20-30), then
decide overlap with `q1core`. -/
def q1 (x1 x2 x3 x4 : ℚ) : Bool :=
  if x2 < x1 then
    if x4 < x3 then q1core x2 x1 x4 x3 else q1core x2 x1 x3 x4
  else
    if x4 < x3 then q1core x1 x2 x4 x3 else q1core x1 x2 x3 x4

/-! ### Lemmas about the JavaScript-object model -/

theorem mapGet_eq_none_iff (m : List (String × α)) (k : String) :
    mapGet m k = none ↔ ∀ p ∈ m, p.1 ≠ k := by
  unfold mapGet
  rw [Option.map_eq_none']
  constructor
  · intro h p hp
    have := List.find?_eq_none.mp h p hp
    simpa using this
  · intro h
    exact List.find?_eq_none.mpr (fun p hp => by simpa using h p hp)

theorem mapGet_eq_some_mem (m : List (String × α)) (k : String) (v : α)
    (h : mapGet m k = some v) : (k, v) ∈ m := by
  unfold mapGet at h
  rcases Option.map_eq_some'.mp h with ⟨p, hp, hv⟩
  have hmem := List.mem_of_find?_eq_some hp
  have hkey : p.1 = k := by simpa using List.find?_some hp
  rw [← hkey, ← hv] at *
  simpa using hmem

theorem mapGet_mapSet_self (m : List (String × α)) (k : String) (v : α) :
    mapGet (mapSet m k v) k = some v := by
  induction m with
  | nil => simp [mapSet, mapGet]
  | cons p rest ih =>
      by_cases h : p.1 = k
      · simp [mapSet, mapGet, h]
      · simp only [mapSet]
        rw [if_neg (by simpa using h)]
        simpa [mapGet, List.find?_cons, h] using ih

theorem mapGet_mapSet_ne (m : List (String × α)) (k k' : String) (v : α)
    (h : k' ≠ k) : mapGet (mapSet m k v) k' = mapGet m k' := by
  induction m with
  | nil => simp [mapSet, mapGet, Ne.symm h]
  | cons p rest ih =>
      by_cases hp : p.1 = k
      · subst hp
        simp [mapSet, mapGet, List.find?_cons, Ne.symm h]
      · simp only [mapSet]
        rw [if_neg (by simpa using hp)]
        by_cases hp' : p.1 = k'
        · simp [mapGet, List.find?_cons, hp']
        · simpa [mapGet, List.find?_cons, hp'] using ih

theorem mapSet_eq_append (m : List (String × α)) (k : String) (v : α)
    (h : ∀ p ∈ m, p.1 ≠ k) : mapSet m k v = m ++ [(k, v)] := by
  induction m with
  | nil => rfl
  | cons p rest ih =>
      have hp : p.1 ≠ k := h p (List.mem_cons_self p rest)
      simp only [mapSet]
      rw [if_neg (by simpa using hp), ih (fun q hq => h q (List.mem_cons_of_mem p hq))]
      simp

theorem mapDelete_eq_self (m : List (String × α)) (k : String)
    (h : ∀ p ∈ m, p.1 ≠ k) : mapDelete m k = m :=
  List.filter_eq_self.mpr (fun p hp => by simpa using h p hp)

/-! ### Lemmas about lists with distinct keys -/

theorem eraseP_key_eq_filter (l : List Node) (k : String)
    (h : (l.map Node.key).Nodup) :
    l.eraseP (fun e => e.key == k) = l.filter (fun e => e.key != k) := by
  induction l with
  | nil => rfl
  | cons e t ih =>
      simp only [List.map_cons, List.nodup_cons] at h
      by_cases he : e.key = k
      · rw [List.eraseP_cons_of_pos (by simpa using he),
          List.filter_cons_of_neg (by simpa using he),
          List.filter_eq_self.mpr]
        intro x hx
        simp only [bne_iff_ne, ne_eq]
        intro hxk
        exact h.1 (by rw [he]; exact List.mem_map.mpr ⟨x, hx, hxk⟩)
      · rw [List.eraseP_cons_of_neg (by simpa using he),
          List.filter_cons_of_pos (by simpa using he), ih h.2]

theorem length_filter_key_ne (l : List Node) (k : String)
    (h : (l.map Node.key).Nodup) (hk : k ∈ l.map Node.key) :
    (l.filter (fun e => e.key != k)).length + 1 = l.length := by
  induction l with
  | nil => cases hk
  | cons e t ih =>
      simp only [List.map_cons, List.nodup_cons] at h
      rcases List.mem_cons.mp hk with he | hk'
      · rw [List.filter_cons_of_neg (by simp [← he]),
          List.filter_eq_self.mpr, List.length_cons]
        intro x hx
        simp only [bne_iff_ne, ne_eq]
        intro hxk
        exact h.1 (by rw [← he]; exact List.mem_map.mpr ⟨x, hx, hxk⟩)
      · have hek : e.key ≠ k := fun hek => h.1 (hek ▸ hk')
        rw [List.filter_cons_of_pos (by simpa using hek), List.length_cons,
          List.length_cons, ih h.2 hk']

theorem map_nodup_inj (l : List α) (f : α → β) (h : (l.map f).Nodup)
    (x y : α) (hx : x ∈ l) (hy : y ∈ l) (hf : f x = f y) : x = y := by
  induction l with
  | nil => cases hx
  | cons a t ih =>
      simp only [List.map_cons, List.nodup_cons] at h
      rcases List.mem_cons.mp hx with rfl | hx' <;>
        rcases List.mem_cons.mp hy with rfl | hy'
      · rfl
      · exact absurd (hf ▸ List.mem_map_of_mem f hy') h.1
      · exact absurd (hf ▸ List.mem_map_of_mem f hx') h.1
      · exact ih h.2 hx' hy'

theorem filter_comp_map (l : List α) (f : α → β) (p : β → Bool) (q : α → Bool)
    (h : ∀ a, p (f a) = q a) :
    (l.map f).filter p = (l.filter q).map f := by
  rw [List.filter_map]
  congr 1
  exact List.filter_congr (fun a _ => h a)

theorem filter_fst_eq_filter_snd (l : List (Nat × String)) (a : Nat) (b : String)
    (ha : (l.map Prod.fst).Nodup) (hb : (l.map Prod.snd).Nodup)
    (hmem : (a, b) ∈ l) :
    l.filter (fun p => p.1 != a) = l.filter (fun p => p.2 != b) := by
  induction l with
  | nil => rfl
  | cons p t ih =>
      simp only [List.map_cons, List.nodup_cons] at ha hb
      rcases List.mem_cons.mp hmem with rfl | hmem'
      · rw [List.filter_cons_of_neg (by simp), List.filter_cons_of_neg (by simp),
          List.filter_eq_self.mpr, List.filter_eq_self.mpr]
        · intro x hx
          simp only [bne_iff_ne, ne_eq]
          intro hxb
          exact hb.1 (List.mem_map.mpr ⟨x, hx, hxb⟩)
        · intro x hx
          simp only [bne_iff_ne, ne_eq]
          intro hxa
          exact ha.1 (List.mem_map.mpr ⟨x, hx, hxa⟩)
      · have h1 : p.1 ≠ a := fun h => ha.1 (h ▸ List.mem_map_of_mem Prod.fst hmem')
        have h2 : p.2 ≠ b := fun h => hb.1 (h ▸ List.mem_map_of_mem Prod.snd hmem')
        rw [List.filter_cons_of_pos (by simpa using h1),
          List.filter_cons_of_pos (by simpa using h2), ih ha.2 hb.2 hmem']

/-! ### The representation invariant of a reachable cache state -/

/-- The well-formedness invariant a cache built by the `LRU` constructor and
mutated only through its methods maintains: the hash map holds exactly one
binding per node of the recency list (in reverse insertion order, since a
fresh JavaScript object key is appended while a fresh node is consed at the
list head); keys are unique; the `length` counter counts the nodes; the node
count never exceeds a positive `limit`; and the armed timers correspond
one-to-one to the nodes, with fresh, distinct handles. -/
def LRU.Inv (st : LRU) : Prop :=
  st.cache = (st.entries.map (fun e => (e.key, e))).reverse ∧
  (st.entries.map Node.key).Nodup ∧
  st.length = (st.entries.length : Int) ∧
  (st.entries.length : Int) ≤ st.limit ∧
  0 < st.limit ∧
  st.pending.map (fun t => (t.1, t.2.1)) = st.entries.map (fun e => (e.timeout, e.key)) ∧
  (st.pending.map (fun t => t.1)).Nodup ∧
  ∀ t ∈ st.pending, t.1 < st.nextTimer

instance (st : LRU) : Decidable st.Inv := by
  unfold LRU.Inv
  infer_instance

theorem LRU.Inv.init (limit timeLimit : Int) (h : 0 < limit) :
    (LRU.init limit timeLimit).Inv := by
  refine ⟨rfl, List.nodup_nil, rfl, by simpa using le_of_lt h, h, rfl, List.nodup_nil, ?_⟩
  intro t ht
  cases ht

theorem LRU.Inv.mapGet_none_iff (st : LRU) (hInv : st.Inv) (k : String) :
    mapGet st.cache k = none ↔ k ∉ st.entries.map Node.key := by
  obtain ⟨h1, -, -, -, -, -, -, -⟩ := hInv
  rw [mapGet_eq_none_iff, h1]
  constructor
  · intro h hk
    rcases List.mem_map.mp hk with ⟨e, he, hek⟩
    exact h (e.key, e) (by simpa using List.mem_map_of_mem (fun e => (e.key, e)) he) hek
  · intro h p hp hpk
    rw [List.mem_reverse] at hp
    rcases List.mem_map.mp hp with ⟨e, he, hpe⟩
    exact h (by rw [← hpk, ← hpe]; exact List.mem_map_of_mem Node.key he)

theorem LRU.Inv.mapGet_some (st : LRU) (hInv : st.Inv) (k : String) (e : Node)
    (he : mapGet st.cache k = some e) : e ∈ st.entries ∧ e.key = k := by
  obtain ⟨h1, -, -, -, -, -, -, -⟩ := hInv
  have hmem := mapGet_eq_some_mem _ _ _ he
  rw [h1, List.mem_reverse] at hmem
  rcases List.mem_map.mp hmem with ⟨x, hx, hxe⟩
  obtain ⟨hk, hv⟩ := Prod.mk.injEq .. ▸ hxe
  exact ⟨hv ▸ hx, hv ▸ hk⟩

theorem LRU.Inv.mapGet_of_mem (st : LRU) (hInv : st.Inv) (e : Node)
    (he : e ∈ st.entries) : mapGet st.cache e.key = some e := by
  have h2 := hInv.2.1
  cases hget : mapGet st.cache e.key with
  | none =>
      exact absurd (List.mem_map_of_mem Node.key he)
        ((LRU.Inv.mapGet_none_iff st hInv e.key).mp hget)
  | some e' =>
      obtain ⟨he', hk⟩ := LRU.Inv.mapGet_some st hInv e.key e' hget
      rw [map_nodup_inj st.entries Node.key h2 e e' he he' hk.symm]

/-! ### Shape and invariance of `remove` -/

theorem LRU.remove_absent (st : LRU) (k : String)
    (h : mapGet st.cache k = none) : st.remove k = st := by
  unfold LRU.remove
  rw [h]

theorem LRU.remove_present (st : LRU) (k : String) (e : Node) (hInv : st.Inv)
    (he : mapGet st.cache k = some e) :
    st.remove k = { st with
      pending := st.pending.filter (fun u => u.1 != e.timeout)
      entries := st.entries.filter (fun x => x.key != k)
      cache := ((st.entries.filter (fun x => x.key != k)).map (fun x => (x.key, x))).reverse
      length := st.length - 1 } := by
  obtain ⟨h1, h2, -, -, -, -, -, -⟩ := hInv
  unfold LRU.remove
  rw [he]
  have hent : st.entries.eraseP (fun x => x.key == k) =
      st.entries.filter (fun x => x.key != k) := eraseP_key_eq_filter _ _ h2
  have hcache : mapDelete st.cache k =
      ((st.entries.filter (fun x => x.key != k)).map (fun x => (x.key, x))).reverse := by
    unfold mapDelete
    rw [h1, List.filter_reverse,
      filter_comp_map st.entries (fun x => (x.key, x)) _ _ (fun x => rfl)]
  rw [hent, hcache]

theorem LRU.Inv.remove (st : LRU) (hInv : st.Inv) (k : String) :
    (st.remove k).Inv := by
  cases hget : mapGet st.cache k with
  | none => rw [LRU.remove_absent st k hget]; exact hInv
  | some e =>
      obtain ⟨heE, hek⟩ := LRU.Inv.mapGet_some st hInv k e hget
      rw [LRU.remove_present st k e hInv hget]
      obtain ⟨h1, h2, h3, h4, h5, h6, h7, h8⟩ := hInv
      have hkeys : (st.entries.filter (fun x => x.key != k)).map Node.key =
          (st.entries.map Node.key).filter (fun s => s != k) :=
        (filter_comp_map st.entries Node.key (fun s => s != k)
          (fun x => x.key != k) (fun x => rfl)).symm
      have hkmem : k ∈ st.entries.map Node.key := hek ▸ List.mem_map_of_mem Node.key heE
      have hlen := length_filter_key_ne st.entries k h2 hkmem
      refine ⟨rfl, ?_, ?_, ?_, h5, ?_, ?_, ?_⟩
      · rw [hkeys]; exact h2.filter _
      · simp only
        omega
      · simp only
        have : (st.entries.filter (fun x => x.key != k)).length ≤ st.entries.length :=
          List.length_filter_le _ _
        omega
      · -- pending alignment after removing the node with key k
        simp only
        have hfm : (st.pending.filter (fun u => u.1 != e.timeout)).map (fun t => (t.1, t.2.1)) =
            (st.pending.map (fun t => (t.1, t.2.1))).filter (fun p => p.1 != e.timeout) :=
          (filter_comp_map st.pending (fun t => (t.1, t.2.1)) (fun p => p.1 != e.timeout)
            (fun u => u.1 != e.timeout) (fun x => rfl)).symm
        have hfst : (st.entries.map (fun e => (e.timeout, e.key))).map Prod.fst =
            st.pending.map (fun t => t.1) := by
          rw [← h6, List.map_map]
          rfl
        have hsnd : (st.entries.map (fun e => (e.timeout, e.key))).map Prod.snd =
            st.entries.map Node.key := by
          rw [List.map_map]
          rfl
        have hpair : (e.timeout, k) ∈ st.entries.map (fun e => (e.timeout, e.key)) :=
          List.mem_map.mpr ⟨e, heE, by rw [hek]⟩
        rw [hfm, h6, filter_fst_eq_filter_snd _ e.timeout k (hfst ▸ h7) (hsnd ▸ h2) hpair,
          filter_comp_map st.entries (fun e => (e.timeout, e.key)) _ _ (fun x => rfl)]
      · have : (st.pending.filter (fun u => u.1 != e.timeout)).map (fun t => t.1) =
            (st.pending.map (fun t => t.1)).filter (fun i => i != e.timeout) :=
          (filter_comp_map st.pending (fun t => t.1) (fun i => i != e.timeout)
            (fun u => u.1 != e.timeout) (fun x => rfl)).symm
        rw [this]
        exact h7.filter _
      · intro t ht
        exact h8 t (List.mem_of_mem_filter ht)

/-! ### Shape and invariance of `write`, `read` and `fire` -/

theorem LRU.resolveTTL_timeLimit (st st' : LRU) (tl : Option Int)
    (h : st.timeLimit = st'.timeLimit) : st.resolveTTL tl = st'.resolveTTL tl := by
  unfold LRU.resolveTTL
  cases tl with
  | none => exact h
  | some t => by_cases ht : t = 0 <;> simp [ht, h]

theorem LRU.insertNew_shape (st : LRU) (k : String) (v : Int) (tl : Option Int)
    (habs : mapGet st.cache k = none) :
    st.insertNew k v tl = { st with
      pending := (st.nextTimer, k, st.resolveTTL tl) :: st.pending
      nextTimer := st.nextTimer + 1
      entries := ⟨k, v, st.nextTimer⟩ :: st.entries
      cache := st.cache ++ [(k, ⟨k, v, st.nextTimer⟩)]
      length := st.length + 1 } := by
  simp only [LRU.insertNew]
  rw [mapSet_eq_append _ _ _ ((mapGet_eq_none_iff _ _).mp habs)]

theorem LRU.Inv.insertNew (st : LRU) (hInv : st.Inv) (k : String) (v : Int)
    (tl : Option Int) (habs : k ∉ st.entries.map Node.key)
    (hcap : (st.entries.length : Int) < st.limit) :
    (st.insertNew k v tl).Inv := by
  obtain ⟨h1, h2, h3, h4, h5, h6, h7, h8⟩ := hInv
  have habs' : mapGet st.cache k = none := by
    rw [mapGet_eq_none_iff, h1]
    intro p hp
    rw [List.mem_reverse] at hp
    rcases List.mem_map.mp hp with ⟨x, hx, hxp⟩
    rw [← hxp]
    intro hxk
    exact habs (List.mem_map.mpr ⟨x, hx, hxk⟩)
  rw [LRU.insertNew_shape st k v tl habs']
  unfold LRU.Inv
  dsimp only
  refine ⟨?_, ?_, ?_, ?_, h5, ?_, ?_, ?_⟩
  · simp only [List.map_cons, List.reverse_cons, h1]
  · simp only [List.map_cons, List.nodup_cons]
    exact ⟨habs, h2⟩
  · simp only [List.length_cons]
    omega
  · simp only [List.length_cons]
    omega
  · simp only [List.map_cons, h6]
  · simp only [List.map_cons, List.nodup_cons]
    refine ⟨?_, h7⟩
    intro hmem
    rcases List.mem_map.mp hmem with ⟨t, ht, hti⟩
    exact absurd (hti ▸ h8 t ht) (lt_irrefl _)
  · intro t ht
    rcases List.mem_cons.mp ht with rfl | ht'
    · simp
    · exact lt_trans (h8 t ht') (by omega)

theorem LRU.write_absent_shape (st : LRU) (k : String) (v : Int) (tl : Option Int)
    (habs : mapGet st.cache k = none) (hlim : st.isAtLimit = false) :
    st.write k v tl = some (st.insertNew k v tl) := by
  unfold LRU.write
  rw [habs]
  simp only [Option.isSome_none, Bool.false_eq_true, if_false, hlim]

theorem LRU.write_present_eq (st : LRU) (k : String) (v : Int) (tl : Option Int)
    (hpres : (mapGet st.cache k).isSome = true) :
    st.write k v tl = (st.remove k).write k v tl := by
  unfold LRU.write
  rw [hpres]
  have habsR : mapGet (st.remove k).cache k = none := by
    unfold LRU.remove
    cases hget : mapGet st.cache k with
    | none => rw [hget] at hpres; cases hpres
    | some e =>
        simp only
        rw [mapGet_eq_none_iff]
        intro p hp
        have := List.of_mem_filter hp
        simpa using this
  rw [habsR]
  simp

theorem LRU.remove_keeps_absent (st : LRU) (k k' : String)
    (h : mapGet st.cache k = none) : mapGet (st.remove k').cache k = none := by
  unfold LRU.remove
  cases hget : mapGet st.cache k' with
  | none => exact h
  | some e =>
      simp only
      rw [mapGet_eq_none_iff]
      intro p hp
      exact (mapGet_eq_none_iff _ _).mp h p (List.mem_of_mem_filter hp)

theorem LRU.Inv.write_ex (st : LRU) (hInv : st.Inv) (k : String) (v : Int)
    (tl : Option Int) : ∃ st', st.write k v tl = some st' ∧ st'.Inv := by
  obtain ⟨h1, h2, h3, h4, h5, h6, h7, h8⟩ := id hInv
  cases hget : mapGet st.cache k with
  | some e =>
      -- the key exists: it is removed first, after which the cache cannot be full
      obtain ⟨heE, hek⟩ := LRU.Inv.mapGet_some st hInv k e hget
      have hR := LRU.remove_present st k e hInv hget
      have hInvR := LRU.Inv.remove st hInv k
      have hkmem : k ∈ st.entries.map Node.key := hek ▸ List.mem_map_of_mem Node.key heE
      have hlen := length_filter_key_ne st.entries k h2 hkmem
      have habsR : k ∉ (st.remove k).entries.map Node.key := by
        rw [hR]
        intro hmem
        rcases List.mem_map.mp hmem with ⟨x, hx, hxk⟩
        exact absurd hxk (by simpa using (List.of_mem_filter hx))
      have hcapR : ((st.remove k).entries.length : Int) < (st.remove k).limit := by
        rw [hR]
        simp only
        omega
      have hlimR : (st.remove k).isAtLimit = false := by
        unfold LRU.isAtLimit
        rw [beq_eq_false_iff_ne]
        rw [hR]
        simp only
        omega
      have habsR' : mapGet (st.remove k).cache k = none :=
        (LRU.Inv.mapGet_none_iff _ hInvR k).mpr habsR
      rw [LRU.write_present_eq st k v tl (by rw [hget]; rfl),
        LRU.write_absent_shape _ k v tl habsR' hlimR]
      exact ⟨_, rfl, LRU.Inv.insertNew _ hInvR k v tl habsR hcapR⟩
  | none =>
      have habs : k ∉ st.entries.map Node.key :=
        (LRU.Inv.mapGet_none_iff st hInv k).mp hget
      cases hlim : st.isAtLimit with
      | false =>
          rw [LRU.write_absent_shape st k v tl hget hlim]
          have hcap : (st.entries.length : Int) < st.limit := by
            unfold LRU.isAtLimit at hlim
            rw [beq_eq_false_iff_ne] at hlim
            omega
          exact ⟨_, rfl, LRU.Inv.insertNew st hInv k v tl habs hcap⟩
      | true =>
          -- the cache is full: the tail node is evicted before inserting
          unfold LRU.isAtLimit at hlim
          have hlim' : st.length = st.limit := by simpa using hlim
          have hne : st.entries ≠ [] := by
            intro hnil
            rw [hnil] at h3
            simp at h3
            omega
          rcases htail' : st.entries.getLast? with _ | tailN
          case none => exact absurd (List.getLast?_eq_none_iff.mp htail') hne
          case some => ?_
          have htail : st.entries.getLast? = some tailN := htail'
          have htmem : tailN ∈ st.entries := by
            rcases List.mem_getLast?_eq_getLast
              (show tailN ∈ st.entries.getLast? from htail) with ⟨hh, rfl⟩
            exact List.getLast_mem hh
          have hgetT : mapGet st.cache tailN.key = some tailN :=
            LRU.Inv.mapGet_of_mem st hInv tailN htmem
          have hRT := LRU.remove_present st tailN.key tailN hInv hgetT
          have hInvT := LRU.Inv.remove st hInv tailN.key
          have htk : tailN.key ∈ st.entries.map Node.key :=
            List.mem_map_of_mem Node.key htmem
          have hlenT := length_filter_key_ne st.entries tailN.key h2 htk
          have habsT : k ∉ (st.remove tailN.key).entries.map Node.key := by
            rw [hRT]
            intro hmem
            rcases List.mem_map.mp hmem with ⟨x, hx, hxk⟩
            exact habs (List.mem_map.mpr ⟨x, List.mem_of_mem_filter hx, hxk⟩)
          have hcapT : ((st.remove tailN.key).entries.length : Int) <
              (st.remove tailN.key).limit := by
            rw [hRT]
            simp only
            omega
          have hw : st.write k v tl =
              some ((st.remove tailN.key).insertNew k v tl) := by
            unfold LRU.write
            rw [hget]
            simp only [Option.isSome_none, Bool.false_eq_true, if_false]
            rw [if_pos (by unfold LRU.isAtLimit; simpa using hlim'), htail]
          rw [hw]
          exact ⟨_, rfl, LRU.Inv.insertNew _ hInvT k v tl habsT hcapT⟩

theorem LRU.insertNew_get (st : LRU) (k : String) (v : Int) (tl : Option Int) :
    mapGet (st.insertNew k v tl).cache k = some ⟨k, v, st.nextTimer⟩ := by
  simp only [LRU.insertNew]
  exact mapGet_mapSet_self _ _ _

theorem LRU.write_get (st : LRU) (k : String) (v : Int) (tl : Option Int)
    (st' : LRU) (h : st.write k v tl = some st') :
    ∃ tid, mapGet st'.cache k = some ⟨k, v, tid⟩ := by
  simp only [LRU.write] at h
  split at h
  · split at h
    · split at h
      · cases h
      · injection h with h'
        exact ⟨_, h' ▸ LRU.insertNew_get _ k v tl⟩
    · injection h with h'
      exact ⟨_, h' ▸ LRU.insertNew_get _ k v tl⟩
  · split at h
    · split at h
      · cases h
      · injection h with h'
        exact ⟨_, h' ▸ LRU.insertNew_get _ k v tl⟩
    · injection h with h'
      exact ⟨_, h' ▸ LRU.insertNew_get _ k v tl⟩

theorem LRU.remove_self_absent (st : LRU) (k : String) (e : Node)
    (he : mapGet st.cache k = some e) :
    mapGet (st.remove k).cache k = none := by
  unfold LRU.remove
  rw [he]
  simp only
  rw [mapGet_eq_none_iff]
  intro p hp
  simpa using List.of_mem_filter hp

theorem LRU.remove_present_not_full (st : LRU) (k : String) (e : Node)
    (hInv : st.Inv) (he : mapGet st.cache k = some e) :
    (st.remove k).isAtLimit = false := by
  obtain ⟨h1, h2, h3, h4, h5, h6, h7, h8⟩ := id hInv
  rw [LRU.remove_present st k e hInv he]
  unfold LRU.isAtLimit
  rw [beq_eq_false_iff_ne]
  simp only
  omega

/-- The facts about `st.remove k` that the re-insertion stage of `read` and
`write` needs, when `k` is present. -/
theorem LRU.Inv.remove_present_facts (st : LRU) (k : String) (e : Node)
    (hInv : st.Inv) (he : mapGet st.cache k = some e) :
    (st.remove k).Inv ∧ k ∉ (st.remove k).entries.map Node.key ∧
      ((st.remove k).entries.length : Int) < (st.remove k).limit := by
  obtain ⟨h1, h2, h3, h4, h5, h6, h7, h8⟩ := id hInv
  obtain ⟨heE, hek⟩ := LRU.Inv.mapGet_some st hInv k e he
  have hkmem : k ∈ st.entries.map Node.key := hek ▸ List.mem_map_of_mem Node.key heE
  have hlen := length_filter_key_ne st.entries k h2 hkmem
  refine ⟨LRU.Inv.remove st hInv k, ?_, ?_⟩
  · rw [LRU.remove_present st k e hInv he]
    intro hmem
    rcases List.mem_map.mp hmem with ⟨x, hx, hxk⟩
    exact absurd hxk (by simpa using (List.of_mem_filter hx))
  · rw [LRU.remove_present st k e hInv he]
    simp only
    omega

theorem LRU.read_absent (st : LRU) (k : String)
    (h : mapGet st.cache k = none) : st.read k = some (st, none) := by
  unfold LRU.read
  rw [h]

theorem LRU.read_ret_none (st : LRU) (k : String) (p : LRU × Option Int)
    (h : st.read k = some p) : p.2 = none := by
  unfold LRU.read at h
  split at h
  · injection h with h'
    rw [← h']
  · split at h
    · cases h
    · injection h with h'
      rw [← h']

theorem LRU.read_present_shape (st : LRU) (k : String) (e : Node)
    (hInv : st.Inv) (he : mapGet st.cache k = some e) :
    st.read k = some ((st.remove k).insertNew k e.val none, none) := by
  unfold LRU.read
  rw [he]
  dsimp only
  rw [LRU.write_absent_shape _ k e.val none (LRU.remove_self_absent st k e he)
    (LRU.remove_present_not_full st k e hInv he)]

/-- Fully evaluated form of a hit: the node moves to the head with its value
preserved, every other node keeps its position, the old timeout is cleared,
and a fresh timeout is armed — with the cache-level default `timeLimit`, not
the duration the node was originally written with. -/
theorem LRU.read_present_full (st : LRU) (k : String) (e : Node)
    (hInv : st.Inv) (he : mapGet st.cache k = some e) :
    st.read k = some ({ st with
      pending := (st.nextTimer, k, st.timeLimit) ::
        st.pending.filter (fun u => u.1 != e.timeout)
      nextTimer := st.nextTimer + 1
      entries := ⟨k, e.val, st.nextTimer⟩ :: st.entries.filter (fun x => x.key != k)
      cache := ((st.entries.filter (fun x => x.key != k)).map (fun x => (x.key, x))).reverse
        ++ [(k, ⟨k, e.val, st.nextTimer⟩)]
      length := st.length }, none) := by
  rw [LRU.read_present_shape st k e hInv he,
    LRU.insertNew_shape _ _ _ _ (LRU.remove_self_absent st k e he),
    LRU.remove_present st k e hInv he]
  simp only [Option.some.injEq, Prod.mk.injEq, LRU.mk.injEq, LRU.resolveTTL, and_true,
    true_and]
  omega

theorem LRU.Inv.read_ex (st : LRU) (hInv : st.Inv) (k : String) :
    ∃ p, st.read k = some p ∧ p.1.Inv := by
  cases hget : mapGet st.cache k with
  | none =>
      rw [LRU.read_absent st k hget]
      exact ⟨(st, none), rfl, hInv⟩
  | some e =>
      obtain ⟨hInvR, habsR, hcapR⟩ := LRU.Inv.remove_present_facts st k e hInv hget
      rw [LRU.read_present_shape st k e hInv hget]
      exact ⟨_, rfl, LRU.Inv.insertNew _ hInvR k e.val none habsR hcapR⟩

/-! ### Shape and invariance of `fire` -/

theorem LRU.fire_not_pending (st : LRU) (tid : Nat)
    (h : st.pending.find? (fun t => t.1 == tid) = none) : st.fire tid = st := by
  unfold LRU.fire
  rw [h]

/-- Under the invariant, a timer firing behaves exactly as an explicit
`remove` of the key it was armed for (the runtime dequeues the timer, and the
callback's own `clearTimeout` on the same handle is then a no-op). -/
theorem LRU.Inv.fire_eq (st : LRU) (hInv : st.Inv) (tid : Nat) :
    st.fire tid = st ∨ ∃ k, st.fire tid = st.remove k := by
  obtain ⟨h1, h2, h3, h4, h5, h6, h7, h8⟩ := id hInv
  cases hfind : st.pending.find? (fun t => t.1 == tid) with
  | none => exact Or.inl (LRU.fire_not_pending st tid hfind)
  | some t =>
      refine Or.inr ⟨t.2.1, ?_⟩
      have htmem : t ∈ st.pending := List.mem_of_find?_eq_some hfind
      have htid : t.1 = tid := by simpa using List.find?_some hfind
      have hpair : (t.1, t.2.1) ∈ st.entries.map (fun e => (e.timeout, e.key)) := by
        rw [← h6]
        exact List.mem_map_of_mem (fun u => (u.1, u.2.1)) htmem
      rcases List.mem_map.mp hpair with ⟨e, heE, hpe⟩
      obtain ⟨het, hekey⟩ := Prod.mk.injEq .. ▸ hpe
      have hget : mapGet st.cache t.2.1 = some e :=
        hekey ▸ LRU.Inv.mapGet_of_mem st hInv e heE
      have hgetX : mapGet ({ st with
          pending := st.pending.filter (fun u => u.1 != tid) } : LRU).cache t.2.1 =
          some e := hget
      unfold LRU.fire
      rw [hfind]
      show ({ st with pending := st.pending.filter (fun u => u.1 != tid) } : LRU).remove t.2.1
          = st.remove t.2.1
      unfold LRU.remove
      simp only [hgetX, hget]
      simp only [LRU.mk.injEq, and_true, true_and]
      rw [List.filter_filter]
      refine List.filter_congr ?_
      intro u hu
      rw [het, htid, Bool.and_self]

theorem LRU.Inv.fire (st : LRU) (hInv : st.Inv) (tid : Nat) :
    (st.fire tid).Inv := by
  rcases LRU.Inv.fire_eq st hInv tid with h | ⟨k, h⟩
  · rw [h]; exact hInv
  · rw [h]; exact LRU.Inv.remove st hInv k

/-- Firing is idempotent on any state: a timer handle is consumed when it
fires, so the same handle can never trigger a second removal. -/
theorem LRU.fire_fire (st : LRU) (tid : Nat) :
    (st.fire tid).fire tid = st.fire tid := by
  cases hfind : st.pending.find? (fun t => t.1 == tid) with
  | none =>
      rw [LRU.fire_not_pending st tid hfind]
      exact LRU.fire_not_pending st tid hfind
  | some t =>
      have hfe : st.fire tid =
          ({ st with pending := st.pending.filter (fun u => u.1 != tid) } : LRU).remove
            t.2.1 := by
        unfold LRU.fire
        rw [hfind]
      have hsub : ∀ u ∈ (st.fire tid).pending,
          u ∈ st.pending.filter (fun x => x.1 != tid) := by
        rw [hfe]
        unfold LRU.remove
        cases hget : mapGet ({ st with
            pending := st.pending.filter (fun u => u.1 != tid) } : LRU).cache t.2.1 with
        | none =>
            simp only [hget]
            intro u hu
            exact hu
        | some e =>
            simp only [hget]
            intro u hu
            exact List.mem_of_mem_filter hu
      have hnone : (st.fire tid).pending.find? (fun u => u.1 == tid) = none := by
        rw [List.find?_eq_none]
        intro u hu
        simpa using List.of_mem_filter (hsub u hu)
      exact LRU.fire_not_pending _ tid hnone

/-! ### Preservation along operation sequences -/

theorem LRU.Inv.step_ex (st : LRU) (hInv : st.Inv) (op : Op) :
    ∃ st', st.step op = some st' ∧ st'.Inv := by
  cases op with
  | put k v tl => exact LRU.Inv.write_ex st hInv k v tl
  | get k =>
      rcases LRU.Inv.read_ex st hInv k with ⟨p, hp, hInv'⟩
      exact ⟨p.1, by simp only [LRU.step, hp, Option.map_some'], hInv'⟩
  | del k => exact ⟨st.remove k, rfl, LRU.Inv.remove st hInv k⟩
  | expire tid => exact ⟨st.fire tid, rfl, LRU.Inv.fire st hInv tid⟩

theorem LRU.Inv.run_ex (st : LRU) (hInv : st.Inv) (ops : List Op) :
    ∃ st', st.run ops = some st' ∧ st'.Inv := by
  induction ops generalizing st with
  | nil => exact ⟨st, rfl, hInv⟩
  | cons op ops ih =>
      rcases LRU.Inv.step_ex st hInv op with ⟨st1, h1, hInv1⟩
      rcases ih st1 hInv1 with ⟨st2, h2, hInv2⟩
      refine ⟨st2, ?_, hInv2⟩
      unfold LRU.run
      rw [h1]
      exact h2

/-- `limit` and `timeLimit` are fixed at construction: no method writes them. -/
theorem LRU.remove_config (st : LRU) (k : String) :
    (st.remove k).limit = st.limit ∧ (st.remove k).timeLimit = st.timeLimit := by
  unfold LRU.remove
  split
  · exact ⟨rfl, rfl⟩
  · exact ⟨rfl, rfl⟩

theorem LRU.insertNew_config (st : LRU) (k : String) (v : Int) (tl : Option Int) :
    (st.insertNew k v tl).limit = st.limit ∧
      (st.insertNew k v tl).timeLimit = st.timeLimit :=
  ⟨rfl, rfl⟩

theorem LRU.write_config (st : LRU) (k : String) (v : Int) (tl : Option Int)
    (st' : LRU) (h : st.write k v tl = some st') :
    st'.limit = st.limit ∧ st'.timeLimit = st.timeLimit := by
  simp only [LRU.write] at h
  split at h
  case isTrue hpres =>
    split at h
    · split at h
      · cases h
      · injection h with h'
        rw [← h']
        constructor
        · rw [(LRU.insertNew_config _ k v tl).1, (LRU.remove_config _ _).1,
            (LRU.remove_config _ _).1]
        · rw [(LRU.insertNew_config _ k v tl).2, (LRU.remove_config _ _).2,
            (LRU.remove_config _ _).2]
    · injection h with h'
      rw [← h']
      constructor
      · rw [(LRU.insertNew_config _ k v tl).1, (LRU.remove_config _ _).1]
      · rw [(LRU.insertNew_config _ k v tl).2, (LRU.remove_config _ _).2]
  case isFalse hpres =>
    split at h
    · split at h
      · cases h
      · injection h with h'
        rw [← h']
        constructor
        · rw [(LRU.insertNew_config _ k v tl).1, (LRU.remove_config _ _).1]
        · rw [(LRU.insertNew_config _ k v tl).2, (LRU.remove_config _ _).2]
    · injection h with h'
      rw [← h']
      exact LRU.insertNew_config st k v tl

theorem LRU.read_config (st : LRU) (k : String) (p : LRU × Option Int)
    (h : st.read k = some p) :
    p.1.limit = st.limit ∧ p.1.timeLimit = st.timeLimit := by
  unfold LRU.read at h
  split at h
  · injection h with h'
    rw [← h']
    exact ⟨rfl, rfl⟩
  · rename_i node hnode
    cases hw : (st.remove k).write k node.val none with
    | none => rw [hw] at h; cases h
    | some st' =>
        rw [hw] at h
        injection h with h'
        rw [← h']
        have h1 := LRU.write_config _ k node.val none st' hw
        have h2 := LRU.remove_config st k
        exact ⟨h1.1.trans h2.1, h1.2.trans h2.2⟩

theorem LRU.fire_config (st : LRU) (tid : Nat) :
    (st.fire tid).limit = st.limit ∧ (st.fire tid).timeLimit = st.timeLimit := by
  unfold LRU.fire
  split
  · exact ⟨rfl, rfl⟩
  · rename_i t ht
    exact LRU.remove_config _ _

theorem LRU.step_config (st : LRU) (op : Op) (st' : LRU) (h : st.step op = some st') :
    st'.limit = st.limit ∧ st'.timeLimit = st.timeLimit := by
  cases op with
  | put k v tl => exact LRU.write_config st k v tl st' h
  | get k =>
      simp only [LRU.step] at h
      cases hr : st.read k with
      | none => rw [hr] at h; cases h
      | some p =>
          rw [hr] at h
          injection h with h'
          rw [← h']
          exact LRU.read_config st k p hr
  | del k =>
      injection h with h'
      rw [← h']
      exact LRU.remove_config st k
  | expire tid =>
      injection h with h'
      rw [← h']
      exact LRU.fire_config st tid

theorem LRU.run_config (st : LRU) (ops : List Op) (st' : LRU)
    (h : st.run ops = some st') :
    st'.limit = st.limit ∧ st'.timeLimit = st.timeLimit := by
  induction ops generalizing st with
  | nil =>
      injection h with h'
      rw [h']
      exact ⟨rfl, rfl⟩
  | cons op ops ih =>
      unfold LRU.run at h
      cases hs : st.step op with
      | none => rw [hs] at h; cases h
      | some st1 =>
          rw [hs] at h
          have h1 := LRU.step_config st op st1 hs
          have h2 := ih st1 h
          exact ⟨h2.1.trans h1.1, h2.2.trans h1.2⟩

/-- C1: for every cache constructed with a positive capacity, after any finite
sequence of `put` (`write`), `get` (`read`), `remove` and expiry-triggered
remove operations, the number of keys in the hash-map index equals the number
of nodes in the recency list, and both are at most the capacity. -/
theorem C1_index_matches_list_and_capacity (limit timeLimit : Int)
    (hpos : 0 < limit) (ops : List Op) (st' : LRU)
    (hrun : (LRU.init limit timeLimit).run ops = some st') :
    st'.cache.length = st'.entries.length ∧
      (st'.cache.length : Int) ≤ limit ∧ (st'.entries.length : Int) ≤ limit := by
  rcases LRU.Inv.run_ex (LRU.init limit timeLimit)
    (LRU.Inv.init limit timeLimit hpos) ops with ⟨st'', h, hInv⟩
  rw [hrun] at h
  injection h with h'
  subst h'
  have hlim : st'.limit = limit := (LRU.run_config _ ops st' hrun).1
  obtain ⟨h1, h2, h3, h4, h5, h6, h7, h8⟩ := hInv
  have hcl : st'.cache.length = st'.entries.length := by
    rw [h1, List.length_reverse, List.length_map]
  rw [hlim] at h4
  exact ⟨hcl, by rw [hcl]; exact h4, h4⟩

/-- Witness for C1 at a concrete run: capacity 2, default TTL 1000, operations
covering all four kinds. -/
theorem C1_witness :
    (0 : Int) < 2 ∧
      ∃ st', (LRU.init 2 1000).run
          [Op.put "k1" 1 none, Op.put "k2" 2 (some 77), Op.get "k1",
            Op.put "k3" 3 none, Op.del "k3", Op.expire 3] = some st' ∧
        st'.cache.length = st'.entries.length ∧
          (st'.cache.length : Int) ≤ 2 ∧ (st'.entries.length : Int) ≤ 2 := by
  refine ⟨by decide, ?_⟩
  refine ⟨⟨1, 2, 1000, [⟨"k1", 1, 2⟩], [("k1", ⟨"k1", 1, 2⟩)],
    [(2, "k1", 1000)], 4⟩, by decide, ?_⟩
  exact C1_index_matches_list_and_capacity 2 1000 (by decide)
    [Op.put "k1" 1 none, Op.put "k2" 2 (some 77), Op.get "k1",
      Op.put "k3" 3 none, Op.del "k3", Op.expire 3] _ (by decide)

/-- C2 (amended): on a cache of capacity 2 with default TTL 1000, after
`Put("k1",1)` and `Put("k2",2)` the recency order is k2 before k1; the
`Get("k1")` moves k1 to the most-recently-used position but evaluates to
`undefined` (the source `read` returns no value, so it does not return
`(1, true)`); the final `Put("k3",3)` evicts exactly "k2" and the cache then
contains exactly k1 ↦ 1 and k3 ↦ 3. -/
theorem C2_scenario_eviction :
    (((LRU.init 2 1000).write "k1" 1 none).bind fun s1 =>
      (s1.write "k2" 2 none).map fun s2 =>
        s2.entries.map (fun e => (e.key, e.val)))
      = some [("k2", 2), ("k1", 1)] ∧
    (((LRU.init 2 1000).write "k1" 1 none).bind fun s1 =>
      (s1.write "k2" 2 none).bind fun s2 =>
      (s2.read "k1").bind fun p =>
      (p.1.write "k3" 3 none).map fun s4 =>
        (p.2, p.1.entries.map (fun e => (e.key, e.val)),
          s4.entries.map (fun e => (e.key, e.val))))
      = some (none, [("k1", 1), ("k2", 2)], [("k3", 3), ("k1", 1)]) ∧
    (((LRU.init 2 1000).write "k1" 1 none).bind fun s1 =>
      (s1.write "k2" 2 none).bind fun s2 =>
      (s2.read "k1").bind fun p =>
      (p.1.write "k3" 3 none).map fun s4 => s4.cache.map Prod.fst)
      = some ["k1", "k3"] := by decide

/-- C2 (counterexample to the claim as stated): the `Get("k1")` of the
scenario evaluates to `undefined` (`none`), not to the value-and-found pair
`(1, true)` (`some 1`). -/
theorem C2_get_no_return :
    (((LRU.init 2 1000).write "k1" 1 none).bind fun s1 =>
      (s1.write "k2" 2 none).bind fun s2 =>
      (s2.read "k1").map Prod.snd) = some none ∧
      (none : Option Int) ≠ some 1 := by decide

/-- C3 (amended): `read` produces no value — the call evaluates to
`undefined` whether or not the key is present.  A key that is absent (which
includes an expired key, since expiry removes it) leaves the cache state
untouched; a present key is moved to the head of the recency list with its
stored value. -/
theorem C3_read_returns_undefined (st : LRU) (k : String) (hInv : st.Inv) :
    (∀ p, st.read k = some p → p.2 = none) ∧
    (mapGet st.cache k = none → st.read k = some (st, none)) ∧
    (∀ e, mapGet st.cache k = some e → ∃ st',
      st.read k = some (st', none) ∧
        st'.entries.head? = some ⟨k, e.val, st.nextTimer⟩) := by
  refine ⟨fun p hp => LRU.read_ret_none st k p hp,
    fun h => LRU.read_absent st k h, ?_⟩
  intro e he
  exact ⟨_, LRU.read_present_full st k e hInv he, rfl⟩

/-- Witness for C3 on a concrete reachable state holding x ↦ 42. -/
theorem C3_witness :
    (⟨1, 5, 2000, [⟨"x", 42, 0⟩], [("x", ⟨"x", 42, 0⟩)],
        [(0, "x", 2000)], 1⟩ : LRU).Inv ∧
    ((∀ p, (⟨1, 5, 2000, [⟨"x", 42, 0⟩], [("x", ⟨"x", 42, 0⟩)],
        [(0, "x", 2000)], 1⟩ : LRU).read "x" = some p → p.2 = none) ∧
      (mapGet (⟨1, 5, 2000, [⟨"x", 42, 0⟩], [("x", ⟨"x", 42, 0⟩)],
        [(0, "x", 2000)], 1⟩ : LRU).cache "x" = none →
        (⟨1, 5, 2000, [⟨"x", 42, 0⟩], [("x", ⟨"x", 42, 0⟩)],
          [(0, "x", 2000)], 1⟩ : LRU).read "x" =
          some (⟨1, 5, 2000, [⟨"x", 42, 0⟩], [("x", ⟨"x", 42, 0⟩)],
            [(0, "x", 2000)], 1⟩, none)) ∧
      (∀ e, mapGet (⟨1, 5, 2000, [⟨"x", 42, 0⟩], [("x", ⟨"x", 42, 0⟩)],
          [(0, "x", 2000)], 1⟩ : LRU).cache "x" = some e → ∃ st',
        (⟨1, 5, 2000, [⟨"x", 42, 0⟩], [("x", ⟨"x", 42, 0⟩)],
          [(0, "x", 2000)], 1⟩ : LRU).read "x" = some (st', none) ∧
          st'.entries.head? = some ⟨"x", e.val, 1⟩)) :=
  ⟨by decide, C3_read_returns_undefined _ "x" (by decide)⟩

/-- C3 (counterexample to the claim as stated): a hit does not return the
stored value with found = true — the call evaluates to `undefined`. -/
theorem C3_hit_returns_undefined :
    (((LRU.init 10 60000).write "x" 42 none).bind fun s =>
      (s.read "x").map Prod.snd) = some none ∧
      (none : Option Int) ≠ some 42 := by decide

/-- C4 (amended): a `read` of a present key keeps the entry's value and moves
it to the recency head, leaving every other entry in place — but it does not
leave the pending expiry unchanged: the previously armed timeout is cleared
and a fresh one is armed with the cache-level default `timeLimit`, discarding
any per-entry TTL that was given at write time. -/
theorem C4_read_rearms_with_default (st : LRU) (k : String) (e : Node)
    (hInv : st.Inv) (he : mapGet st.cache k = some e) :
    ∃ st', st.read k = some (st', none) ∧
      st'.entries = ⟨k, e.val, st.nextTimer⟩ ::
        st.entries.filter (fun x => x.key != k) ∧
      st'.pending = (st.nextTimer, k, st.timeLimit) ::
        st.pending.filter (fun u => u.1 != e.timeout) ∧
      st'.length = st.length ∧ st'.timeLimit = st.timeLimit :=
  ⟨_, LRU.read_present_full st k e hInv he, rfl, rfl, rfl, rfl⟩

/-- Witness for C4 on a concrete reachable state whose entry was written with
a per-entry TTL of 5000 against a default of 1000. -/
theorem C4_witness :
    (⟨1, 10, 1000, [⟨"a", 7, 0⟩], [("a", ⟨"a", 7, 0⟩)],
        [(0, "a", 5000)], 1⟩ : LRU).Inv ∧
    mapGet (⟨1, 10, 1000, [⟨"a", 7, 0⟩], [("a", ⟨"a", 7, 0⟩)],
        [(0, "a", 5000)], 1⟩ : LRU).cache "a" = some ⟨"a", 7, 0⟩ ∧
    (∃ st', (⟨1, 10, 1000, [⟨"a", 7, 0⟩], [("a", ⟨"a", 7, 0⟩)],
        [(0, "a", 5000)], 1⟩ : LRU).read "a" = some (st', none) ∧
      st'.entries = [⟨"a", 7, 1⟩] ∧
      st'.pending = [(1, "a", 1000)] ∧
      st'.length = 1 ∧ st'.timeLimit = 1000) := by
  refine ⟨by decide, by decide, ?_⟩
  have h := C4_read_rearms_with_default
    (⟨1, 10, 1000, [⟨"a", 7, 0⟩], [("a", ⟨"a", 7, 0⟩)],
      [(0, "a", 5000)], 1⟩ : LRU) "a" ⟨"a", 7, 0⟩ (by decide) (by decide)
  simpa using h

/-- C4 (counterexample to the claim as stated): reading a key that was
written with a per-entry TTL of 5000 re-arms its expiry with the default
1000 — the armed duration is not left unchanged. -/
theorem C4_read_changes_armed_ttl :
    (((LRU.init 10 1000).write "a" 7 (some 5000)).bind fun s1 =>
      (s1.read "a").map fun p => p.1.pending) = some [(1, "a", 1000)] ∧
      ((1 : Nat), "a", (1000 : Int)) ≠ (1, "a", 5000) := by decide

/-- Fully evaluated form of re-writing a present key: the old node's timeout
is cleared (`remove` runs first) and one fresh timeout is armed with the
newly resolved TTL. -/
theorem LRU.write_present_full (st : LRU) (k : String) (v : Int)
    (tl : Option Int) (e : Node) (hInv : st.Inv)
    (he : mapGet st.cache k = some e) :
    st.write k v tl = some { st with
      pending := (st.nextTimer, k, st.resolveTTL tl) ::
        st.pending.filter (fun u => u.1 != e.timeout)
      nextTimer := st.nextTimer + 1
      entries := ⟨k, v, st.nextTimer⟩ :: st.entries.filter (fun x => x.key != k)
      cache := ((st.entries.filter (fun x => x.key != k)).map
          (fun x => (x.key, x))).reverse ++ [(k, ⟨k, v, st.nextTimer⟩)]
      length := st.length } := by
  rw [LRU.write_present_eq st k v tl (by rw [he]; rfl),
    LRU.write_absent_shape _ k v tl (LRU.remove_self_absent st k e he)
      (LRU.remove_present_not_full st k e hInv he),
    LRU.insertNew_shape _ _ _ _ (LRU.remove_self_absent st k e he),
    LRU.remove_present st k e hInv he]
  have httl : ({ st with
      pending := st.pending.filter (fun u => u.1 != e.timeout)
      entries := st.entries.filter (fun x => x.key != k)
      cache := ((st.entries.filter (fun x => x.key != k)).map
        (fun x => (x.key, x))).reverse
      length := st.length - 1 } : LRU).resolveTTL tl = st.resolveTTL tl :=
    LRU.resolveTTL_timeLimit _ st tl rfl
  simp only [Option.some.injEq, LRU.mk.injEq, and_true, true_and, httl]
  omega

/-- C7: a `put` on a key that already exists cancels that key's previously
armed expiry and arms exactly one new expiry with the newly resolved TTL
(`timeLimit || this.timeLimit`); the cancelled handle can never fire again
(firing it is a no-op), and even the freshly armed handle fires at most once,
so one logical write never produces two removals. -/
theorem C7_rewrite_cancels_previous_expiry (st : LRU) (k : String) (v : Int)
    (tl : Option Int) (e : Node) (st' : LRU) (hInv : st.Inv)
    (he : mapGet st.cache k = some e) (hw : st.write k v tl = some st') :
    e.timeout ∉ st'.pending.map (fun t => t.1) ∧
    st'.pending.filter (fun t => t.2.1 == k) =
      [(st.nextTimer, k, st.resolveTTL tl)] ∧
    st'.fire e.timeout = st' ∧
    (st'.fire st.nextTimer).fire st.nextTimer = st'.fire st.nextTimer := by
  obtain ⟨h1, h2, h3, h4, h5, h6, h7, h8⟩ := id hInv
  obtain ⟨heE, hek⟩ := LRU.Inv.mapGet_some st hInv k e he
  have hfull := LRU.write_present_full st k v tl e hInv he
  rw [hw] at hfull
  injection hfull with h'
  subst h'
  have hpairE : (e.timeout, k) ∈ st.entries.map (fun x => (x.timeout, x.key)) :=
    List.mem_map.mpr ⟨e, heE, by rw [hek]⟩
  have hpairP : (e.timeout, k) ∈ st.pending.map (fun t => (t.1, t.2.1)) := by
    rw [h6]; exact hpairE
  have hlt : e.timeout < st.nextTimer := by
    rcases List.mem_map.mp hpairP with ⟨u, hu, hue⟩
    obtain ⟨hu1, -⟩ := Prod.mk.injEq .. ▸ hue
    exact hu1 ▸ h8 u hu
  have hnotin : e.timeout ∉
      ((st.nextTimer, k, st.resolveTTL tl) ::
        st.pending.filter (fun u => u.1 != e.timeout)).map (fun t => t.1) := by
    rw [List.map_cons]
    intro hmem
    rcases List.mem_cons.mp hmem with hhead | htail
    · omega
    · rcases List.mem_map.mp htail with ⟨u, hu, hue⟩
      have hune := List.of_mem_filter hu
      simp only [bne_iff_ne, ne_eq] at hune
      exact hune hue
  have hconj2 : ((st.nextTimer, k, st.resolveTTL tl) ::
      st.pending.filter (fun u => u.1 != e.timeout)).filter
        (fun t => t.2.1 == k) = [(st.nextTimer, k, st.resolveTTL tl)] := by
    rw [List.filter_cons_of_pos (by simp), List.filter_eq_nil_iff.mpr]
    intro u hu
    have huP : u ∈ st.pending := List.mem_of_mem_filter hu
    have hune := List.of_mem_filter hu
    simp only [bne_iff_ne, ne_eq] at hune
    simp only [beq_iff_eq]
    intro huk
    have hupair : (u.1, k) ∈ st.pending.map (fun t => (t.1, t.2.1)) :=
      huk ▸ List.mem_map_of_mem (fun t => (t.1, t.2.1)) huP
    have hsnd : ((st.pending.map (fun t => (t.1, t.2.1))).map Prod.snd).Nodup := by
      rw [h6, List.map_map]
      exact h2
    have hpq := map_nodup_inj _ Prod.snd hsnd (u.1, k) (e.timeout, k)
      hupair hpairP rfl
    exact hune (congrArg Prod.fst hpq)
  refine ⟨hnotin, hconj2, ?_, LRU.fire_fire _ st.nextTimer⟩
  apply LRU.fire_not_pending
  rw [List.find?_eq_none]
  intro u hu
  simp only [beq_iff_eq]
  intro hue
  have hu2 : u ∈ (st.nextTimer, k, st.resolveTTL tl) ::
      st.pending.filter (fun x => x.1 != e.timeout) := hu
  rcases List.mem_cons.mp hu2 with rfl | hu'
  · simp only at hue
    omega
  · have hne := List.of_mem_filter hu'
    simp only [bne_iff_ne, ne_eq] at hne
    exact hne hue

/-- Witness for C7: on a concrete two-entry cache, re-writing key "a" (old
timeout handle 0, armed with 500) with a new TTL of 200 leaves exactly one
pending expiry for "a", with delay 200 and the fresh handle 2. -/
theorem C7_witness :
    (⟨2, 3, 100, [⟨"b", 8, 1⟩, ⟨"a", 7, 0⟩],
        [("a", ⟨"a", 7, 0⟩), ("b", ⟨"b", 8, 1⟩)],
        [(1, "b", 100), (0, "a", 500)], 2⟩ : LRU).Inv ∧
    mapGet (⟨2, 3, 100, [⟨"b", 8, 1⟩, ⟨"a", 7, 0⟩],
        [("a", ⟨"a", 7, 0⟩), ("b", ⟨"b", 8, 1⟩)],
        [(1, "b", 100), (0, "a", 500)], 2⟩ : LRU).cache "a" = some ⟨"a", 7, 0⟩ ∧
    (⟨2, 3, 100, [⟨"b", 8, 1⟩, ⟨"a", 7, 0⟩],
        [("a", ⟨"a", 7, 0⟩), ("b", ⟨"b", 8, 1⟩)],
        [(1, "b", 100), (0, "a", 500)], 2⟩ : LRU).write "a" 9 (some 200) =
      some ⟨2, 3, 100, [⟨"a", 9, 2⟩, ⟨"b", 8, 1⟩],
        [("b", ⟨"b", 8, 1⟩), ("a", ⟨"a", 9, 2⟩)],
        [(2, "a", 200), (1, "b", 100)], 3⟩ ∧
    ((0 : Nat) ∉ ((⟨2, 3, 100, [⟨"a", 9, 2⟩, ⟨"b", 8, 1⟩],
        [("b", ⟨"b", 8, 1⟩), ("a", ⟨"a", 9, 2⟩)],
        [(2, "a", 200), (1, "b", 100)], 3⟩ : LRU)).pending.map (fun t => t.1) ∧
      ((⟨2, 3, 100, [⟨"a", 9, 2⟩, ⟨"b", 8, 1⟩],
        [("b", ⟨"b", 8, 1⟩), ("a", ⟨"a", 9, 2⟩)],
        [(2, "a", 200), (1, "b", 100)], 3⟩ : LRU)).pending.filter
          (fun t => t.2.1 == "a") = [(2, "a", 200)] ∧
      ((⟨2, 3, 100, [⟨"a", 9, 2⟩, ⟨"b", 8, 1⟩],
        [("b", ⟨"b", 8, 1⟩), ("a", ⟨"a", 9, 2⟩)],
        [(2, "a", 200), (1, "b", 100)], 3⟩ : LRU)).fire 0 =
        ⟨2, 3, 100, [⟨"a", 9, 2⟩, ⟨"b", 8, 1⟩],
          [("b", ⟨"b", 8, 1⟩), ("a", ⟨"a", 9, 2⟩)],
          [(2, "a", 200), (1, "b", 100)], 3⟩ ∧
      (((⟨2, 3, 100, [⟨"a", 9, 2⟩, ⟨"b", 8, 1⟩],
        [("b", ⟨"b", 8, 1⟩), ("a", ⟨"a", 9, 2⟩)],
        [(2, "a", 200), (1, "b", 100)], 3⟩ : LRU)).fire 2).fire 2 =
        ((⟨2, 3, 100, [⟨"a", 9, 2⟩, ⟨"b", 8, 1⟩],
          [("b", ⟨"b", 8, 1⟩), ("a", ⟨"a", 9, 2⟩)],
          [(2, "a", 200), (1, "b", 100)], 3⟩ : LRU)).fire 2) := by
  refine ⟨by decide, by decide, by decide, ?_⟩
  exact C7_rewrite_cancels_previous_expiry
    (⟨2, 3, 100, [⟨"b", 8, 1⟩, ⟨"a", 7, 0⟩],
      [("a", ⟨"a", 7, 0⟩), ("b", ⟨"b", 8, 1⟩)],
      [(1, "b", 100), (0, "a", 500)], 2⟩ : LRU) "a" 9 (some 200) ⟨"a", 7, 0⟩
    (⟨2, 3, 100, [⟨"a", 9, 2⟩, ⟨"b", 8, 1⟩],
      [("b", ⟨"b", 8, 1⟩), ("a", ⟨"a", 9, 2⟩)],
      [(2, "a", 200), (1, "b", 100)], 3⟩ : LRU)
    (by decide) (by decide) (by decide)

/-- C6 (the cloning bug, claim right, code wrong): constructing a regional
cache against a hub that holds two entries calls `globalLRU.head.clone()`,
whose body references the undeclared identifier `next` (instead of
`this.next`), so construction throws a ReferenceError instead of producing an
independent copy of the hub's contents. -/
theorem C6_bootstrap_reference_error :
    (((LRU.init 10 60000).write "k1" 1 none).bind fun g1 =>
      (g1.write "k2" 2 none).map fun g2 => CanadaLRU.bootstrap g2 10 60000)
    = some (Except.error "ReferenceError: next is not defined") := by decide

/-- C8 (counterexample to the claim as stated): `new LRU(0, -1)` does not
fail — the constructor performs no validation and produces a cache object
whose capacity is 0 and whose default TTL is −1, both non-positive. -/
theorem C8_no_construction_validation :
    (LRU.init 0 (-1)).limit = 0 ∧ (LRU.init 0 (-1)).timeLimit = -1 ∧
      (LRU.init 0 (-1)).length = 0 ∧ ¬ (0 : Int) > 0 ∧ ¬ (-1 : Int) > 0 := by
  decide

/-- C8 (amended): construction never fails, whatever the signs of the
arguments: the capacity and default TTL are stored exactly as given
(defaulting to 10 and 60000) and the cache starts empty. -/
theorem C8_constructor_stores_arguments (limit timeLimit : Int) :
    (LRU.init limit timeLimit).limit = limit ∧
    (LRU.init limit timeLimit).timeLimit = timeLimit ∧
    (LRU.init limit timeLimit).entries = [] ∧
    (LRU.init limit timeLimit).cache = [] ∧
    (LRU.init limit timeLimit).length = 0 ∧
    LRU.init = LRU.init 10 60000 ∧ (LRU.init 10 60000).timeLimit = 60000 :=
  ⟨rfl, rfl, rfl, rfl, rfl, rfl, rfl⟩

/-- C9 (counterexample to the claim as stated): `addLRU` under an id that is
already registered does not fail with a conflict error — it silently
overwrites the registration, changing the registry. -/
theorem C9_duplicate_register_overwrites :
    ((⟨LRU.init 10 60000, [("a", LRU.init 1 1)]⟩ : GlobalLRU).addLRU "a"
      (LRU.init 2 2)).lrus = [("a", LRU.init 2 2)] ∧
    [("a", LRU.init 2 2)] ≠ [("a", LRU.init 1 1)] := by decide

/-- C9 (amended): `addLRU` with an already-registered region id overwrites
that registration in place (no error) and leaves every other id's
registration unchanged; `removeLRU` of an id that is not registered is a
no-op that leaves the hub unchanged. -/
theorem C9_register_semantics (g : GlobalLRU) (k : String) (s : LRU) :
    mapGet (g.addLRU k s).lrus k = some s ∧
    (∀ k', k' ≠ k → mapGet (g.addLRU k s).lrus k' = mapGet g.lrus k') ∧
    (mapGet g.lrus k = none → g.removeLRU k = g) := by
  refine ⟨mapGet_mapSet_self _ _ _, fun k' h => mapGet_mapSet_ne _ _ _ _ h, ?_⟩
  intro h
  unfold GlobalLRU.removeLRU
  have hfe : g.lrus.filter (fun p => p.1 != k) = g.lrus :=
    List.filter_eq_self.mpr (fun p hp => by
      simpa using (mapGet_eq_none_iff _ _).mp h p hp)
  rw [hfe]

/-- Witness for C9 on a concrete hub holding only region "b". -/
theorem C9_witness :
    mapGet ((⟨LRU.init 10 60000, [("b", LRU.init 3 30)]⟩ : GlobalLRU).addLRU "a"
      (LRU.init 2 2)).lrus "a" = some (LRU.init 2 2) ∧
    ("b" : String) ≠ "a" ∧
    mapGet ((⟨LRU.init 10 60000, [("b", LRU.init 3 30)]⟩ : GlobalLRU).addLRU "a"
      (LRU.init 2 2)).lrus "b" =
      mapGet (⟨LRU.init 10 60000, [("b", LRU.init 3 30)]⟩ : GlobalLRU).lrus "b" ∧
    mapGet (⟨LRU.init 10 60000, [("b", LRU.init 3 30)]⟩ : GlobalLRU).lrus "a"
      = none ∧
    (⟨LRU.init 10 60000, [("b", LRU.init 3 30)]⟩ : GlobalLRU).removeLRU "a" =
      ⟨LRU.init 10 60000, [("b", LRU.init 3 30)]⟩ := by
  have h := C9_register_semantics
    (⟨LRU.init 10 60000, [("b", LRU.init 3 30)]⟩ : GlobalLRU) "a" (LRU.init 2 2)
  exact ⟨h.1, by decide, h.2.1 "b" (by decide), by decide, h.2.2 (by decide)⟩

/-! ### The replication fan-out -/

theorem mapGet_cons (a : String) (b : α) (m : List (String × α)) (k : String) :
    mapGet ((a, b) :: m) k = if a == k then some b else mapGet m k := by
  by_cases h : a = k
  · unfold mapGet
    rw [List.find?_cons_of_pos _ (by simpa using h), if_pos (by simpa using h)]
    rfl
  · unfold mapGet
    rw [List.find?_cons_of_neg _ (by simpa using h), if_neg (by simpa using h)]

theorem fanOutWrite_keys (rs : List (String × LRU)) (k : String) (v : Int)
    (tl : Option Int) (o : String) (rs' : List (String × LRU))
    (h : fanOutWrite rs k v tl o = some rs') :
    rs'.map Prod.fst = rs.map Prod.fst := by
  induction rs generalizing rs' with
  | nil =>
      unfold fanOutWrite at h
      injection h with h'
      rw [← h']
  | cons p rest ih =>
      obtain ⟨id, st⟩ := p
      unfold fanOutWrite at h
      by_cases hid : (id == o) = true
      · rw [if_pos hid] at h
        cases hrest : fanOutWrite rest k v tl o with
        | none => rw [hrest] at h; cases h
        | some l =>
            rw [hrest, Option.map_some'] at h
            injection h with h'
            rw [← h']
            simp only [List.map_cons]
            rw [ih l hrest]
      · rw [if_neg hid] at h
        cases hw : st.write k v tl with
        | none => simp only [hw] at h; exact Option.noConfusion h
        | some st' =>
            cases hrest : fanOutWrite rest k v tl o with
            | none => simp only [hw, hrest, Option.map_none'] at h; exact Option.noConfusion h
            | some l =>
                simp only [hw, hrest, Option.map_some', Option.some.injEq] at h
                rw [← h]
                simp only [List.map_cons]
                rw [ih l hrest]

theorem fanOutWrite_origin (rs : List (String × LRU)) (k : String) (v : Int)
    (tl : Option Int) (o : String) (rs' : List (String × LRU))
    (h : fanOutWrite rs k v tl o = some rs') :
    mapGet rs' o = mapGet rs o := by
  induction rs generalizing rs' with
  | nil =>
      unfold fanOutWrite at h
      injection h with h'
      rw [← h']
  | cons p rest ih =>
      obtain ⟨id, st⟩ := p
      unfold fanOutWrite at h
      by_cases hid : (id == o) = true
      · rw [if_pos hid] at h
        cases hrest : fanOutWrite rest k v tl o with
        | none => rw [hrest] at h; cases h
        | some l =>
            rw [hrest, Option.map_some'] at h
            injection h with h'
            rw [← h']
            rw [mapGet_cons, mapGet_cons, if_pos hid, if_pos hid]
      · rw [if_neg hid] at h
        cases hw : st.write k v tl with
        | none => simp only [hw] at h; exact Option.noConfusion h
        | some st' =>
            cases hrest : fanOutWrite rest k v tl o with
            | none => simp only [hw, hrest, Option.map_none'] at h; exact Option.noConfusion h
            | some l =>
                simp only [hw, hrest, Option.map_some', Option.some.injEq] at h
                rw [← h]
                rw [mapGet_cons, mapGet_cons, if_neg hid, if_neg hid]
                exact ih l hrest

theorem fanOutWrite_target (rs : List (String × LRU)) (k : String) (v : Int)
    (tl : Option Int) (o : String) (rs' : List (String × LRU))
    (h : fanOutWrite rs k v tl o = some rs') (id : String) (hid : id ≠ o)
    (st : LRU) (hget : mapGet rs id = some st) :
    ∃ st', st.write k v tl = some st' ∧ mapGet rs' id = some st' := by
  induction rs generalizing rs' with
  | nil => simp [mapGet] at hget
  | cons p rest ih =>
      obtain ⟨pid, pst⟩ := p
      unfold fanOutWrite at h
      rw [mapGet_cons] at hget
      by_cases hpo : (pid == o) = true
      · rw [if_pos hpo] at h
        cases hrest : fanOutWrite rest k v tl o with
        | none => rw [hrest] at h; cases h
        | some l =>
            rw [hrest, Option.map_some'] at h
            injection h with h'
            subst h'
            by_cases hpk : (pid == id) = true
            · exfalso
              have h1 : pid = o := by simpa using hpo
              have h2 : pid = id := by simpa using hpk
              exact hid (h2 ▸ h1)
            · rw [if_neg hpk] at hget
              rcases ih l hrest hget with ⟨st', hw, hg⟩
              refine ⟨st', hw, ?_⟩
              rw [mapGet_cons, if_neg hpk]
              exact hg
      · rw [if_neg hpo] at h
        cases hw : pst.write k v tl with
        | none => simp only [hw] at h; exact Option.noConfusion h
        | some pst' =>
            cases hrest : fanOutWrite rest k v tl o with
            | none => simp only [hw, hrest, Option.map_none'] at h; exact Option.noConfusion h
            | some l =>
                simp only [hw, hrest, Option.map_some', Option.some.injEq] at h
                subst h
                by_cases hpk : (pid == id) = true
                · rw [if_pos hpk] at hget
                  injection hget with hst
                  subst hst
                  refine ⟨pst', hw, ?_⟩
                  rw [mapGet_cons, if_pos hpk]
                · rw [if_neg hpk] at hget
                  rcases ih l hrest hget with ⟨st', hw', hg⟩
                  refine ⟨st', hw', ?_⟩
                  rw [mapGet_cons, if_neg hpk]
                  exact hg

/-- C5: when `GlobalLRU.write` with origin region id `lruKey` completes, the
hub's own store has received exactly one `super.write`; the registry of
regions is unchanged; the origin's registration is untouched by its own
notification (no double-apply); and every other registered region's cache
has received exactly one plain base-class `LRU.write` — the body of
`updateWrite`, which notifies nobody, so the update triggers no further
fan-out round — after which that region contains `key ↦ val`. -/
theorem C5_notify_write_fans_out (g : GlobalLRU) (key : String) (val : Int)
    (tl : Option Int) (lruKey : String) (g' : GlobalLRU)
    (h : g.write key val tl lruKey = some g') :
    (∃ s', g.self.write key val tl = some s' ∧ g'.self = s') ∧
    g'.lrus.map Prod.fst = g.lrus.map Prod.fst ∧
    mapGet g'.lrus lruKey = mapGet g.lrus lruKey ∧
    (∀ id st, id ≠ lruKey → mapGet g.lrus id = some st →
      ∃ st', st.write key val tl = some st' ∧ mapGet g'.lrus id = some st' ∧
        ∃ tid, mapGet st'.cache key = some ⟨key, val, tid⟩) := by
  unfold GlobalLRU.write at h
  cases hs : g.self.write key val tl with
  | none => rw [hs] at h; cases h
  | some self' =>
      rw [hs] at h
      cases hf : fanOutWrite g.lrus key val tl lruKey with
      | none => rw [hf] at h; cases h
      | some lrus' =>
          rw [hf] at h
          injection h with h'
          subst h'
          refine ⟨⟨self', ⟨rfl, rfl⟩⟩, fanOutWrite_keys _ _ _ _ _ _ hf,
            fanOutWrite_origin _ _ _ _ _ _ hf, ?_⟩
          intro id st hid hget
          rcases fanOutWrite_target _ _ _ _ _ _ hf id hid st hget with
            ⟨st', hw, hg⟩
          rcases LRU.write_get st key val tl st' hw with ⟨tid, hc⟩
          exact ⟨st', hw, hg, tid, hc⟩

/-- Witness for C5: a hub with registered regions canada and usa; a write of
k ↦ 5 originating in canada reaches usa, leaves canada's registration
untouched and applies exactly one `super.write` to the hub's own store. -/
theorem C5_witness :
    (⟨LRU.init 2 1000, [("canada", LRU.init 2 1000), ("usa", LRU.init 2 1000)]⟩ :
        GlobalLRU).write "k" 5 none "canada" =
      some ⟨⟨1, 2, 1000, [⟨"k", 5, 0⟩], [("k", ⟨"k", 5, 0⟩)], [(0, "k", 1000)], 1⟩,
        [("canada", LRU.init 2 1000),
          ("usa", ⟨1, 2, 1000, [⟨"k", 5, 0⟩], [("k", ⟨"k", 5, 0⟩)],
            [(0, "k", 1000)], 1⟩)]⟩ ∧
    ("usa" : String) ≠ "canada" ∧
    mapGet (⟨LRU.init 2 1000,
        [("canada", LRU.init 2 1000), ("usa", LRU.init 2 1000)]⟩ :
        GlobalLRU).lrus "usa" = some (LRU.init 2 1000) ∧
    mapGet (⟨⟨1, 2, 1000, [⟨"k", 5, 0⟩], [("k", ⟨"k", 5, 0⟩)], [(0, "k", 1000)], 1⟩,
        [("canada", LRU.init 2 1000),
          ("usa", ⟨1, 2, 1000, [⟨"k", 5, 0⟩], [("k", ⟨"k", 5, 0⟩)],
            [(0, "k", 1000)], 1⟩)]⟩ : GlobalLRU).lrus "canada" =
      mapGet (⟨LRU.init 2 1000,
        [("canada", LRU.init 2 1000), ("usa", LRU.init 2 1000)]⟩ :
        GlobalLRU).lrus "canada" ∧
    (∃ st', (LRU.init 2 1000).write "k" 5 none = some st' ∧
      mapGet (⟨⟨1, 2, 1000, [⟨"k", 5, 0⟩], [("k", ⟨"k", 5, 0⟩)], [(0, "k", 1000)], 1⟩,
        [("canada", LRU.init 2 1000),
          ("usa", ⟨1, 2, 1000, [⟨"k", 5, 0⟩], [("k", ⟨"k", 5, 0⟩)],
            [(0, "k", 1000)], 1⟩)]⟩ : GlobalLRU).lrus "usa" = some st' ∧
      ∃ tid, mapGet st'.cache "k" = some ⟨"k", 5, tid⟩) := by
  have h := C5_notify_write_fans_out
    (⟨LRU.init 2 1000, [("canada", LRU.init 2 1000), ("usa", LRU.init 2 1000)]⟩ :
      GlobalLRU) "k" 5 none "canada"
    (⟨⟨1, 2, 1000, [⟨"k", 5, 0⟩], [("k", ⟨"k", 5, 0⟩)], [(0, "k", 1000)], 1⟩,
      [("canada", LRU.init 2 1000),
        ("usa", ⟨1, 2, 1000, [⟨"k", 5, 0⟩], [("k", ⟨"k", 5, 0⟩)],
          [(0, "k", 1000)], 1⟩)]⟩ : GlobalLRU) (by decide)
  exact ⟨by decide, by decide, by decide, h.2.2.1,
    h.2.2.2 "usa" (LRU.init 2 1000) (by decide) (by decide)⟩

/-! ### The interval-overlap utility -/

theorem q1core_iff (a1 b1 a2 b2 : ℚ) (h1 : a1 ≤ b1) (h2 : a2 ≤ b2) :
    q1core a1 b1 a2 b2 = true ↔ max a1 a2 ≤ min b1 b2 := by
  unfold q1core
  split_ifs with heq hbw hbw2
  · simp only [max_le_iff, le_min_iff]
    constructor
    · intro _
      rcases heq with h | h | h | h <;>
        exact ⟨⟨by linarith, by linarith⟩, by linarith, by linarith⟩
    · intro _
      trivial
  · simp only [max_le_iff, le_min_iff]
    constructor
    · intro _
      exact ⟨⟨by linarith [hbw.1, hbw.2], by linarith [hbw.1, hbw.2]⟩,
        by linarith [hbw.1, hbw.2], by linarith [hbw.1, hbw.2]⟩
    · intro _
      trivial
  · simp only [max_le_iff, le_min_iff]
    constructor
    · intro _
      exact ⟨⟨by linarith [hbw2.1, hbw2.2], by linarith [hbw2.1, hbw2.2]⟩,
        by linarith [hbw2.1, hbw2.2], by linarith [hbw2.1, hbw2.2]⟩
    · intro _
      trivial
  · constructor
    · intro hft
      exact absurd hft (by simp)
    · intro hle
      exfalso
      push_neg at heq
      obtain ⟨hA, hB, hC, hD⟩ := heq
      simp only [max_le_iff, le_min_iff] at hle
      obtain ⟨⟨hle1, hle3⟩, hle2, hle4⟩ := hle
      rcases lt_trichotomy a1 a2 with hc | hc | hc
      · have hb1 : ¬ b1 > a2 := fun hb => hbw ⟨hc, hb⟩
        exact hC (le_antisymm (not_lt.mp hb1) hle3)
      · exact hA hc
      · have hb2 : ¬ b2 > a1 := fun hb => hbw2 ⟨hc, hb⟩
        exact hB (le_antisymm hle2 (not_lt.mp hb2))

theorem q1_iff (x1 x2 x3 x4 : ℚ) :
    q1 x1 x2 x3 x4 = true ↔
      max (min x1 x2) (min x3 x4) ≤ min (max x1 x2) (max x3 x4) := by
  unfold q1
  split_ifs with hs1 hs2 hs3
  · rw [min_eq_right hs1.le, max_eq_left hs1.le, min_eq_right hs2.le,
      max_eq_left hs2.le]
    exact q1core_iff x2 x1 x4 x3 hs1.le hs2.le
  · rw [min_eq_right hs1.le, max_eq_left hs1.le,
      min_eq_left (not_lt.mp hs2), max_eq_right (not_lt.mp hs2)]
    exact q1core_iff x2 x1 x3 x4 hs1.le (not_lt.mp hs2)
  · rw [min_eq_left (not_lt.mp hs1), max_eq_right (not_lt.mp hs1),
      min_eq_right hs3.le, max_eq_left hs3.le]
    exact q1core_iff x1 x2 x4 x3 (not_lt.mp hs1) hs3.le
  · rw [min_eq_left (not_lt.mp hs1), max_eq_right (not_lt.mp hs1),
      min_eq_left (not_lt.mp hs3), max_eq_right (not_lt.mp hs3)]
    exact q1core_iff x1 x2 x3 x4 (not_lt.mp hs1) (not_lt.mp hs3)

/-- C10: `q1` returns true exactly when the closed intervals spanned by the
two endpoint pairs intersect, i.e. when
`max (min x1 x2) (min x3 x4) ≤ min (max x1 x2) (max x3 x4)`; in particular
the result is unchanged when either pair is given in reversed order, and
intervals that touch at a single endpoint count as overlapping. -/
theorem C10_q1_interval_overlap (x1 x2 x3 x4 : ℚ) :
    (q1 x1 x2 x3 x4 = true ↔
      max (min x1 x2) (min x3 x4) ≤ min (max x1 x2) (max x3 x4)) ∧
    q1 x2 x1 x3 x4 = q1 x1 x2 x3 x4 ∧
    q1 x1 x2 x4 x3 = q1 x1 x2 x3 x4 := by
  refine ⟨q1_iff x1 x2 x3 x4, ?_, ?_⟩
  · rw [Bool.eq_iff_iff, q1_iff, q1_iff, min_comm x2 x1, max_comm x2 x1]
  · rw [Bool.eq_iff_iff, q1_iff, q1_iff, min_comm x4 x3, max_comm x4 x3]
